import Mathlib

/-!
# Verification of the Dental Guardians core (menu / battle state machine / text layout)

Shallow embedding of the game's core logic, translated from `game_objects.py`
and `scenes.py`.  Python `dict`s with insertion order are modelled as
association lists, Python `int` as `Int`, Python `float` arithmetic on the
combat path (which only ever divides by 2, exactly representable) as `Rat`.
Pygame surfaces are abstracted as traces of draw operations; object identity
of shared `Printable` cells is modelled with an explicit allocation store.
-/

/-! ## Enumerations (game_objects.py, `GameStatus`, `WeaponType`, `ItemType`) -/

inductive GameStatus where
  | TITLE_SCREEN
  | CREDITS
  | EXIT
  | BATTLE_START
  | BATTLE_MENU
  | ITEM_MENU
  | WEAPON_MENU
  | USE_ITEM
  | PLAYER_ATTACK
  | ENEMY_ATTACK
  | VICTORY
  | DEFEAT
  deriving DecidableEq, Repr

inductive WeaponType where
  | NONE
  | BRUSH
  | FLOSS
  deriving DecidableEq, Repr

inductive ItemType where
  | NONE
  | DEFENCE
  | DAMAGE
  deriving DecidableEq, Repr

/-! ## Weapon and Item (game_objects.py).  The pygame sprite slot of `Weapon`
is render-only state and is not part of the model. -/

structure Weapon where
  name : String
  damage : Int
  type : WeaponType
  size : Int × Int := (256, 256)
  deriving DecidableEq, Repr

structure Item where
  name : String
  type : ItemType
  mag : Int := 1
  deriving DecidableEq, Repr

/-- A value stored in a menu's options dict: a `GameStatus`, a `Weapon`, an
`Item`, or Python `None` (`MenuPayload.none`). -/
inductive MenuPayload where
  | status (g : GameStatus)
  | weapon (w : Weapon)
  | item (i : Item)
  | none
  deriving DecidableEq, Repr

/-! ## Menu (game_objects.py, class `Menu`)

Only the selection state is modelled: `options` is the insertion-ordered
dict of label/payload pairs and `current_option` the selected index.  The
purely visual constructor keywords do not affect `update_option` /
`get_option` and are omitted. -/

structure Menu where
  options : List (String × MenuPayload)
  size : Int × Int := (0, 0)
  current_option : Int := 0
  deriving DecidableEq, Repr

/-- `Menu.update_option` (game_objects.py lines 224-241).  `if self.options:`
guards the whole body; the positive overflow branch takes `%` (Python `%` on a
positive modulus is the Euclidean remainder, i.e. `Int.emod`), the negative
branch sets the index to `num_options - 1`. -/
def Menu.update_option (m : Menu) (diff : Int) : Menu :=
  if m.options.isEmpty then m
  else
    let cur := m.current_option + diff
    let num_options : Int := m.options.length
    if cur ≥ num_options then { m with current_option := cur % num_options }
    else if cur < 0 then { m with current_option := num_options - 1 }
    else { m with current_option := cur }

/-- `Menu.update_option` with Python's runtime fault behaviour made explicit:
`%` by a zero modulus raises `ZeroDivisionError`, modelled as `Option.none`.
The source's emptiness guard makes the modulus reachable only when nonzero;
`update_option_checked_eq` below proves the two models agree everywhere. -/
def Menu.update_option_checked (m : Menu) (diff : Int) : Option Menu :=
  if m.options.isEmpty then some m
  else
    let cur := m.current_option + diff
    let num_options : Int := m.options.length
    if cur ≥ num_options then
      if num_options = 0 then Option.none
      else some { m with current_option := cur % num_options }
    else if cur < 0 then some { m with current_option := num_options - 1 }
    else some { m with current_option := cur }

/-- `Menu.get_option` (game_objects.py lines 243-249):
`tuple(self.options.values())[self.current_option]` when options exist, with
Python's negative-index wrap-around; an implicit `return None` otherwise.
`Option.none` here models an `IndexError` (index out of range even after
wrap-around); `some MenuPayload.none` models Python returning `None`. -/
def Menu.get_option (m : Menu) : Option MenuPayload :=
  if m.options.isEmpty then some MenuPayload.none
  else
    let vals := m.options.map Prod.snd
    let j := if m.current_option < 0 then m.current_option + vals.length
             else m.current_option
    if j < 0 then Option.none
    else vals.get? j.toNat

/-! ## Status (game_objects.py, class `Status`): the state-machine record -/

structure Status where
  status : GameStatus
  weapon : Option Weapon := Option.none
  item : Option Item := Option.none
  deriving DecidableEq, Repr

/-- `Status.update` (game_objects.py lines 87-97): dispatch on the dynamic type
of the selected payload; a value that is none of `GameStatus`, `Weapon`,
`Item` (i.e. Python `None`) falls through every `isinstance` branch and leaves
the record untouched. -/
def Status.update (st : Status) (new_status : MenuPayload) : Status :=
  match new_status with
  | .status g => { st with status := g }
  | .weapon w => { st with status := .PLAYER_ATTACK, weapon := some w }
  | .item i => { st with status := .USE_ITEM, item := some i }
  | .none => st

/-! ## Enemy and Player combat paths (game_objects.py) -/

structure Enemy where
  name : String
  hp : Int
  max_hp : Int
  size : Int × Int
  weakness : Option WeaponType := Option.none
  damage : Int := 2
  deriving DecidableEq, Repr

/-- `Enemy.take_damage` (game_objects.py lines 460-466): base damage 2, doubled
when `weapon.type is self.weakness` (enum identity, equality on members; a
`None` weakness matches no weapon type); hp decremented without clamping;
returns the damage dealt. -/
def Enemy.take_damage (e : Enemy) (weapon : Weapon) : Int × Enemy :=
  let dmg : Int := 2
  let dmg := if some weapon.type = e.weakness then dmg * 2 else dmg
  (dmg, { e with hp := e.hp - dmg })

structure Player where
  max_hp : Rat
  hp : Rat
  weapons : List (Option Weapon)
  items : List (Option Item)
  level : Int := 1
  defence : Rat := 0
  deriving DecidableEq, Repr

/-- `Player.take_damage` (game_objects.py lines 591-601): `taken = dmg -
defence / 2` (Python true division; always an exact half, modelled in `Rat`),
floored at 0; hp decremented and clamped at 0; returns `taken`. -/
def Player.take_damage (p : Player) (dmg : Rat) : Rat × Player :=
  let taken := dmg - p.defence / 2
  let taken := if taken < 0 then 0 else taken
  let hp := p.hp - taken
  let hp := if hp < 0 then 0 else hp
  (taken, { p with hp := hp })

/-! ## Python sequence primitives used by `TextBox.format_text` -/

/-- Python `s[i]` on a string: a negative index counts from the end;
`Option.none` models an `IndexError`. -/
def pyGet (s : List Char) (i : Int) : Option Char :=
  let j := if i < 0 then i + s.length else i
  if j < 0 then Option.none else s.get? j.toNat

/-- One bound of a Python slice `s[a:b]` (step 1), normalised to `[0, n]`. -/
def pyBound (n : Nat) (a : Int) : Nat :=
  if a < 0 then (a + n).toNat else min a.toNat n

/-- Python `s[a:b]` (step 1). -/
def pySlice (s : List Char) (a b : Int) : List Char :=
  (s.take (pyBound s.length b)).drop (pyBound s.length a)

/-! ## TextBox.format_text (game_objects.py lines 348-380) -/

inductive ScanResult where
  | found (i : Int)
  | hitEnd
  | exhausted
  deriving DecidableEq, Repr

/-- Body of `scanSpace`, counting down the `n` values of the Python range. -/
def scanGo (s : List Char) : Nat → Int → ScanResult
  | 0, _ => .exhausted
  | n + 1, i =>
    if (s.length : Int) ≤ i then .hitEnd
    else if pyGet s i = some ' ' then .found i
    else scanGo s n (i - 1)

/-- The inner `for i in range(split, idx - 1, -1)` of `format_text`: scan `i`
from `hi` down to `lo` (an empty range, `hi < lo`, runs the `else` clause at
once); `break` when `i >= len(string)` (`.hitEnd`); `break` recording
`split = i` at the first space met (`.found i`); run the for-`else` clause
when the range is used up (`.exhausted`).  The range has
`max 0 (hi + 1 - lo)` elements. -/
def scanSpace (s : List Char) (hi lo : Int) : ScanResult :=
  scanGo s ((hi + 1 - lo).toNat) hi

/-- One segment of `TextBox.format_text`: the `while idx < len(string)` loop
with its `prev` / `idx` / `split` state exactly as in the source, driven by
explicit fuel; `Option.none` models non-termination of the Python loop (which
really happens for `WIDTH ≤ 0`).  In the `.exhausted` branch the source reads
`string[split - WIDTH]` (always `prev - 1`, possibly the Python index `-1`)
and may decrement `prev` just for the line slice; the assignment
`prev = split + 1` afterwards overwrites it either way. -/
def wrapLoop (s : List Char) (W : Int) :
    Nat → Int → Int → List (List Char) → Option (List (List Char))
  | 0, _, _, _ => Option.none
  | fuel + 1, prev, idx, acc =>
    if idx < (s.length : Int) then
      let split := prev + W - 1
      match scanSpace s split idx with
      | .found i =>
        wrapLoop s W fuel (i + 1) (i + 2) (acc ++ [pySlice s prev i])
      | .hitEnd =>
        wrapLoop s W fuel (split + 1) (split + 2) (acc ++ [pySlice s prev split])
      | .exhausted =>
        let prev' := if pyGet s (split - W) ≠ some ' ' then prev - 1 else prev
        wrapLoop s W fuel (split + 1) (split + 2) (acc ++ [pySlice s prev' split])
    else some acc

/-- `TextBox.format_text`, parameterised by the column budget
`WIDTH = round(self.size[0] // self.font.size('0')[0])` (integer division of
ints, so the `round` is the identity; the box size and glyph width live in
the renderer).  The text is split on newlines and each segment wrapped.  Fuel
`length + 2` is enough whenever the Python loop terminates at all: each
iteration moves `idx` up by at least 1 for `WIDTH ≥ 1`, and for `WIDTH ≤ 0`
the Python loop really spins forever and the model yields `Option.none`. -/
def format_text (W : Int) (text : List Char) : Option (List (List Char)) :=
  let lines := text.splitOn '\n'
  (lines.mapM fun s => wrapLoop s W (s.length + 2) 0 0 []).map List.flatten

/-! ## Word sequences (the round-trip claim's vocabulary) -/

/-- Helper for `spaceWords`: `cur` holds the reversed run being read. -/
def spaceWordsAux (cur : List Char) : List Char → List (List Char)
  | [] => if cur.isEmpty then [] else [cur.reverse]
  | c :: rest =>
    if c = ' ' then
      if cur.isEmpty then spaceWordsAux [] rest
      else cur.reverse :: spaceWordsAux [] rest
    else spaceWordsAux (c :: cur) rest

/-- The maximal space-free runs of a segment, in order. -/
def spaceWords (s : List Char) : List (List Char) := spaceWordsAux [] s

/-- The word sequence of a whole text: words of each newline-separated
segment, concatenated. -/
def textWords (t : List Char) : List (List Char) :=
  (t.splitOn '\n').flatMap spaceWords

/-- Rejoin wrapped lines with single-space separators (the round-trip claim's
"rejoining the resulting lines with separators"). -/
def joinSpace : List (List Char) → List Char
  | [] => []
  | [l] => l
  | l :: rest => l ++ ' ' :: joinSpace rest

/-- Every window of `W` consecutive characters contains a space; equivalently,
no space-free run of the segment has length `W` or more. -/
def windowsHaveSpace (W : Nat) (s : List Char) : Bool :=
  (List.range (s.length + 1)).all fun q =>
    decide (s.length < q + W) || ((s.drop q).take W).any fun c => c = ' '

def noDoubleSpace : List Char → Bool
  | [] => true
  | [_] => true
  | c :: d :: rest => !(c == ' ' && d == ' ') && noDoubleSpace (d :: rest)

/-- The segment does not end in a space followed by exactly one character
(the shape on which the wrapper's final one-character word is dropped). -/
def lastBreakOK (s : List Char) : Bool :=
  decide (s.length < 2) || (s.get? (s.length - 2) != some ' ')

/-! ## Scenes (scenes.py)

Pygame surfaces are abstracted: a composed frame is the ordered trace of its
draw operations, and background images are abstract ids.  Screen positions
are modelled in `Rat` because the source computes some of them with Python
float division (e.g. `display_height - display_height // 3 * 1.25`). -/

/-- `TextBox` display state (game_objects.py class `TextBox`): the current
text and the box size; the wrapping of the text into lines is `format_text`
above, and the fonts/colors are render-only. -/
structure TextBox where
  text : List Char
  size : Rat × Rat
  line : Bool := false
  deriving DecidableEq, Repr

/-- What a `Printable.object` may reference:
`Union[Menu, TextBox, Enemy, None]` (scenes.py line 20), minus the `None`. -/
inductive Renderable where
  | menu (m : Menu)
  | textbox (t : TextBox)
  | enemy (e : Enemy)
  deriving DecidableEq, Repr

/-- `Printable` (scenes.py lines 18-21): an object reference and a position. -/
structure Printable where
  object : Option Renderable := Option.none
  pos : Rat × Rat := (0, 0)
  deriving DecidableEq, Repr

/-- One step of a frame composition. -/
inductive Draw where
  | fillWhite
  | background (imageId : Nat)
  | obj (r : Renderable) (pos : Rat × Rat)
  | sprite (e : Enemy) (status : GameStatus) (pos : Rat × Rat)
  | healthbar (e : Enemy) (pos : Rat × Rat)
  deriving DecidableEq, Repr

structure Scene where
  bg : Option Nat
  menu : Printable
  statics : List (String × Printable)
  deriving DecidableEq, Repr

/-- `Scene.get_surface` (scenes.py lines 30-47): white fill, the background if
any, then every static whose object reference is set (insertion order), then
the menu if set — unset references are skipped silently. -/
def Scene.get_surface (sc : Scene) : List Draw :=
  let staticDraws := sc.statics.flatMap fun kv =>
    match kv.2.object with
    | some o => [Draw.obj o kv.2.pos]
    | Option.none => []
  let menuDraws := match sc.menu.object with
    | some o => [Draw.obj o sc.menu.pos]
    | Option.none => []
  Draw.fillWhite ::
    ((match sc.bg with | some b => [Draw.background b] | Option.none => []) ++
      staticDraws ++ menuDraws)

structure BattleScene extends Scene where
  enemy : Printable
  healthbar : Printable
  deriving DecidableEq, Repr

/-- `BattleScene.get_surface` (scenes.py lines 55-72).  The source calls
`self.enemy.object.get_sprite(status)` before any guard: with an unset (or
non-Enemy) object this is an `AttributeError`, modelled as `Option.none`.
Only then does `if self.enemy.object is not None` recompute the health bar
(necessarily reached with a set enemy), store it in the health-bar cell and
draw it.  The sprite and health-bar surfaces are abstracted to the enemy
state and status they were rendered from.  Returns the draw trace and the
scene with its mutated health-bar cell. -/
def BattleScene.get_surface (bs : BattleScene) (status : GameStatus) :
    Option (List Draw × BattleScene) :=
  match bs.enemy.object with
  | some (.enemy e) =>
    let base := bs.toScene.get_surface ++ [Draw.sprite e status bs.enemy.pos]
    let bs' := { bs with
      healthbar := { bs.healthbar with object := some (.enemy e) } }
    some (base ++ [Draw.healthbar e bs.healthbar.pos], bs')
  | _ => Option.none

/-! ## generate_scenes (scenes.py lines 102-354)

Python object sharing between the scenes is made explicit with a store of
`Printable` cells: every `Printable(...)` literal in the source allocates a
fresh cell, while each battle scene after `BATTLE_START` names
`scenes[GameStatus.BATTLE_START].enemy` / `.healthbar` and therefore reuses
those cell references verbatim. -/

abbrev Heap := List Printable

def hAlloc (h : Heap) (p : Printable) : Heap × Nat := (h ++ [p], h.length)

/-- A scene as produced by `generate_scenes`, with `Printable`s as store
references. -/
structure SceneRefs where
  isBattle : Bool
  bg : Option Nat
  menuRef : Nat
  staticRefs : List (String × Nat)
  enemyRef : Option Nat := Option.none
  healthbarRef : Option Nat := Option.none
  deriving DecidableEq, Repr

def screen_size : Int × Int := (800, 600)

/-- The `battle_scene_stuff` table of `generate_scenes`, evaluated for the
800x600 screen.  Python `//` floors, `* 1.25` is exact in binary floats:
menu pos = (800 // 30, 600 - 600 // 3 * 1.25) = (26, 350.0),
textbox pos = (800 // 4, same y) = (200, 350.0),
healthbar pos = (800 // 2 - 800 // 25, 50) = (368, 50),
enemy pos = (800 // 15, 600 // 25) = (53, 24). -/
def battleMenuPos : Rat × Rat := (26, 350)
def battleTextboxPos : Rat × Rat := (200, 350)
def battleHealthbarPos : Rat × Rat := (368, 50)
def battleEnemyPos : Rat × Rat := (53, 24)

def titleMenu : Menu :=
  { options := [("Start", .status .BATTLE_START), ("Credits", .status .CREDITS),
                ("Exit", .status .EXIT)], size := (200, 128) }

def battleStartStaticMenu : Menu :=
  { options := [("Weapon", .none), ("Consumable", .none), ("Exit", .none)],
    size := (160, 200) }

def battleMenuMenu : Menu :=
  { options := [("Weapon", .status .WEAPON_MENU),
                ("Consumable", .status .ITEM_MENU),
                ("Exit", .status .TITLE_SCREEN)], size := (160, 200) }

def emptyBattleMenu : Menu := { options := [], size := (160, 200) }

/-- The info box: size = (800 // 2.4, 600 // 3) = (333.0, 200). -/
def infoBox : TextBox := { text := [], size := (333, 200), line := true }

/-- The wide box of the attack scenes:
size = ((textbox pos x + textbox width) - menu pos x, textbox height)
     = (200 + 333.0 - 26, 200) = (507.0, 200). -/
def bigBox : TextBox :=
  { text := [], size := (507, 200), line := true }

/-- `generate_scenes`: the store of allocated `Printable` cells and the
status-to-scene table, in source order.  Background ids: 0 = title screen
art, 1 = the dentist battle background (`scenes[BATTLE_START].bg` is reused
by every later battle scene). -/
def generate_scenes : Heap × List (GameStatus × SceneRefs) :=
  let h : Heap := []
  -- menu at (800 // 20, 600 * 2 // 3), title box at (800 // 20, 600 // 2);
  -- the title box is built without an explicit size, so its tight-fit size
  -- depends on font metrics and is recorded here as 0x0
  let (h, titleMenuRef) := hAlloc h ⟨some (.menu titleMenu), (40, 400)⟩
  let (h, titleBoxRef) :=
    hAlloc h ⟨some (.textbox ⟨"Dental Guardians".toList, (0, 0), false⟩), (40, 300)⟩
  let title : SceneRefs :=
    { isBattle := false, bg := some 0, menuRef := titleMenuRef,
      staticRefs := [("title_box", titleBoxRef)] }
  let (h, bsMenuRef) := hAlloc h ⟨Option.none, (0, 0)⟩
  let (h, bsInfoRef) := hAlloc h ⟨some (.textbox infoBox), battleTextboxPos⟩
  let (h, bsStaticMenuRef) := hAlloc h ⟨some (.menu battleStartStaticMenu), battleMenuPos⟩
  let (h, bsEnemyRef) := hAlloc h ⟨Option.none, battleEnemyPos⟩
  let (h, bsHealthbarRef) := hAlloc h ⟨Option.none, battleHealthbarPos⟩
  let battleStart : SceneRefs :=
    { isBattle := true, bg := some 1, menuRef := bsMenuRef,
      staticRefs := [("info_box", bsInfoRef), ("menu", bsStaticMenuRef)],
      enemyRef := some bsEnemyRef, healthbarRef := some bsHealthbarRef }
  let (h, bmMenuRef) := hAlloc h ⟨some (.menu battleMenuMenu), battleMenuPos⟩
  let (h, bmInfoRef) := hAlloc h ⟨some (.textbox infoBox), battleTextboxPos⟩
  let battleMenu : SceneRefs :=
    { isBattle := true, bg := battleStart.bg, menuRef := bmMenuRef,
      staticRefs := [("info_box", bmInfoRef)],
      enemyRef := battleStart.enemyRef, healthbarRef := battleStart.healthbarRef }
  let (h, wmMenuRef) := hAlloc h ⟨some (.menu emptyBattleMenu), battleMenuPos⟩
  let (h, wmInfoRef) := hAlloc h ⟨some (.textbox infoBox), battleTextboxPos⟩
  let weaponMenu : SceneRefs :=
    { isBattle := true, bg := battleStart.bg, menuRef := wmMenuRef,
      staticRefs := [("info_box", wmInfoRef)],
      enemyRef := battleStart.enemyRef, healthbarRef := battleStart.healthbarRef }
  let (h, imMenuRef) := hAlloc h ⟨some (.menu emptyBattleMenu), battleMenuPos⟩
  let (h, imInfoRef) := hAlloc h ⟨some (.textbox infoBox), battleTextboxPos⟩
  let itemMenu : SceneRefs :=
    { isBattle := true, bg := battleStart.bg, menuRef := imMenuRef,
      staticRefs := [("info_box", imInfoRef)],
      enemyRef := battleStart.enemyRef, healthbarRef := battleStart.healthbarRef }
  let (h, paMenuRef) := hAlloc h ⟨Option.none, (0, 0)⟩
  let (h, paInfoRef) := hAlloc h ⟨some (.textbox bigBox), battleMenuPos⟩
  let playerAttack : SceneRefs :=
    { isBattle := true, bg := battleStart.bg, menuRef := paMenuRef,
      staticRefs := [("info_box", paInfoRef)],
      enemyRef := battleStart.enemyRef, healthbarRef := battleStart.healthbarRef }
  let (h, uiMenuRef) := hAlloc h ⟨Option.none, (0, 0)⟩
  let (h, uiInfoRef) := hAlloc h ⟨some (.textbox bigBox), battleMenuPos⟩
  let useItem : SceneRefs :=
    { isBattle := true, bg := battleStart.bg, menuRef := uiMenuRef,
      staticRefs := [("info_box", uiInfoRef)],
      enemyRef := battleStart.enemyRef, healthbarRef := battleStart.healthbarRef }
  let (h, eaMenuRef) := hAlloc h ⟨Option.none, (0, 0)⟩
  let (h, eaInfoRef) := hAlloc h ⟨some (.textbox bigBox), battleMenuPos⟩
  let enemyAttack : SceneRefs :=
    { isBattle := true, bg := battleStart.bg, menuRef := eaMenuRef,
      staticRefs := [("info_box", eaInfoRef)],
      enemyRef := battleStart.enemyRef, healthbarRef := battleStart.healthbarRef }
  (h, [(.TITLE_SCREEN, title), (.BATTLE_START, battleStart),
       (.BATTLE_MENU, battleMenu), (.WEAPON_MENU, weaponMenu),
       (.ITEM_MENU, itemMenu), (.PLAYER_ATTACK, playerAttack),
       (.USE_ITEM, useItem), (.ENEMY_ATTACK, enemyAttack)])

/-- Reassemble a `BattleScene` record from a scene-table entry by
dereferencing its cells (what Python attribute access on the shared
`Printable` objects does). -/
def mkBattleScene (h : Heap) (sr : SceneRefs) : Option BattleScene := do
  let menu ← h.get? sr.menuRef
  let statics ← sr.staticRefs.mapM fun kv => (h.get? kv.2).map fun p => (kv.1, p)
  let eRef ← sr.enemyRef
  let enemy ← h.get? eRef
  let hbRef ← sr.healthbarRef
  let healthbar ← h.get? hbRef
  some { bg := sr.bg, menu := menu, statics := statics,
         enemy := enemy, healthbar := healthbar }

/-- The battle-phase statuses (spec section 3, invariants). -/
def battlePhaseStatuses : List GameStatus :=
  [.BATTLE_START, .BATTLE_MENU, .WEAPON_MENU, .ITEM_MENU,
   .PLAYER_ATTACK, .USE_ITEM, .ENEMY_ATTACK]

/-- A concrete three-option menu at the initial selection. -/
def menu3 : Menu :=
  { options := [("a", .none), ("b", .none), ("c", .none)] }

/-- A concrete two-option menu with the second option selected. -/
def menu2 : Menu :=
  { options := [("a", .none), ("b", .status .EXIT)], current_option := 1 }

/-- A concrete player with an odd defence value (so the halving matters). -/
def player0 : Player :=
  { max_hp := 20, hp := 3, weapons := [], items := [], defence := 1 }

/-! # Theorems -/

/-! ## Menu.update_option basic lemmas -/

theorem update_option_of_empty (m : Menu) (d : Int) (hm : m.options = []) :
    m.update_option d = m := by
  simp [Menu.update_option, hm]

theorem update_option_options (m : Menu) (d : Int) :
    (m.update_option d).options = m.options := by
  unfold Menu.update_option
  split <;> [rfl; (dsimp only []; split <;> [rfl; (split <;> rfl)])]

theorem update_option_bounds (m : Menu) (d : Int) (hne : m.options ≠ []) :
    0 ≤ (m.update_option d).current_option ∧
      (m.update_option d).current_option < m.options.length := by
  have hlen : 0 < (m.options.length : Int) := by
    have := List.length_pos.mpr hne
    exact_mod_cast this
  unfold Menu.update_option
  have hempty : m.options.isEmpty = false := by
    simpa [List.isEmpty_iff] using hne
  rw [hempty]
  simp only [Bool.false_eq_true, if_false]
  split
  · dsimp only
    constructor
    · exact Int.emod_nonneg _ (by omega)
    · exact Int.emod_lt_of_pos _ hlen
  · split
    · dsimp only
      constructor <;> omega
    · dsimp only
      constructor <;> omega

theorem update_option_current_of_small_step (m : Menu) (d : Int)
    (hne : m.options ≠ []) (h0 : 0 ≤ m.current_option)
    (h1 : m.current_option < m.options.length) (hd : -1 ≤ d) :
    (m.update_option d).current_option =
      (m.current_option + d) % m.options.length := by
  have hlen : 0 < (m.options.length : Int) := by
    have := List.length_pos.mpr hne
    exact_mod_cast this
  unfold Menu.update_option
  have hempty : m.options.isEmpty = false := by
    simpa [List.isEmpty_iff] using hne
  rw [hempty]
  simp only [Bool.false_eq_true, if_false]
  split
  · rfl
  · rename_i hge
    split
    · rename_i hneg
      dsimp only
      have hcur : m.current_option + d = -1 := by omega
      have h2 : (-1 : Int) % (m.options.length : Int) =
          ((m.options.length : Int) - 1) % (m.options.length : Int) := by
        rw [show (-1 : Int) =
          ((m.options.length : Int) - 1) + (m.options.length : Int) * (-1) by ring]
        rw [Int.add_mul_emod_self_left]
      rw [hcur, h2, Int.emod_eq_of_lt (by omega) (by omega)]
    · rename_i hneg
      dsimp only
      have hlt : m.current_option + d < m.options.length := by omega
      rw [Int.emod_eq_of_lt (by omega) hlt]

theorem foldl_update_option_options (ds : List Int) (m : Menu) :
    (ds.foldl Menu.update_option m).options = m.options := by
  induction ds generalizing m with
  | nil => rfl
  | cons d ds ih => rw [List.foldl_cons, ih, update_option_options]

theorem foldl_update_option_bounds (ds : List Int) (m : Menu)
    (hne : m.options ≠ []) (h0 : 0 ≤ m.current_option)
    (h1 : m.current_option < m.options.length) :
    0 ≤ (ds.foldl Menu.update_option m).current_option ∧
      (ds.foldl Menu.update_option m).current_option < m.options.length := by
  induction ds generalizing m with
  | nil => exact ⟨h0, h1⟩
  | cons d ds ih =>
    rw [List.foldl_cons]
    have hopts := update_option_options m d
    have hb := update_option_bounds m d hne
    have := ih (m.update_option d) (hopts ▸ hne) hb.1 (hopts ▸ hb.2)
    rwa [hopts] at this

theorem foldl_update_option_sum (ds : List Int) (m : Menu)
    (hne : m.options ≠ []) (h0 : 0 ≤ m.current_option)
    (h1 : m.current_option < m.options.length) (hd : ∀ d ∈ ds, -1 ≤ d) :
    (ds.foldl Menu.update_option m).current_option =
      (m.current_option + ds.sum) % m.options.length := by
  induction ds generalizing m with
  | nil =>
    simp only [List.foldl_nil, List.sum_nil, add_zero]
    exact (Int.emod_eq_of_lt h0 h1).symm
  | cons d ds ih =>
    rw [List.foldl_cons]
    have hopts := update_option_options m d
    have hb := update_option_bounds m d hne
    have hstep := update_option_current_of_small_step m d hne h0 h1
      (hd d (List.mem_cons_self d ds))
    have hrec := ih (m.update_option d) (hopts ▸ hne) hb.1 (hopts ▸ hb.2)
      (fun e he => hd e (List.mem_cons_of_mem d he))
    rw [hrec, hopts, hstep, List.sum_cons, Int.emod_add_emod]
    ring_nf

/-- C1, counterexample to the claim as stated: for a 3-option menu a single
`update_option(-5)` from index 0 yields index 2, while the sum of deltas
(-5) normalized modulo 3 is 1 — the negative wrap branch of the source sets
`num_options - 1` instead of a true modulo. -/
theorem menu_update_mod_counterexample :
    (menu3.update_option (-5)).current_option = 2 ∧
      ((0 : Int) + (-5)) % (menu3.options.length : Int) = 1 ∧
      (menu3.update_option (-5)).current_option ≠
        ((0 : Int) + (-5)) % (menu3.options.length : Int) := by
  refine ⟨rfl, by decide, by decide⟩

/-- C1 (amended): starting from index 0, after any sequence of
`update_option` calls the index is a valid index into the options
(`0 ≤ index < N`, N ≥ 1); and when every delta is at least -1 — in
particular for the arrow-key steps of ±1 the game issues — the index equals
the sum of the deltas modulo N, normalized into `[0, N)`. -/
theorem menu_update_option_runs (opts : List (String × MenuPayload))
    (ds : List Int) (hne : opts ≠ []) :
    (0 ≤ (ds.foldl Menu.update_option { options := opts }).current_option ∧
      (ds.foldl Menu.update_option { options := opts }).current_option <
        opts.length) ∧
    ((∀ d ∈ ds, -1 ≤ d) →
      (ds.foldl Menu.update_option { options := opts }).current_option =
        ds.sum % (opts.length : Int)) := by
  constructor
  · exact foldl_update_option_bounds ds { options := opts } hne le_rfl
      (by dsimp only; exact_mod_cast List.length_pos.mpr hne)
  · intro hd
    have := foldl_update_option_sum ds { options := opts } hne le_rfl
      (by dsimp only; exact_mod_cast List.length_pos.mpr hne) hd
    simpa using this

theorem menu_update_option_runs_witness :
    (0 ≤ (([2, -1, 7] : List Int).foldl Menu.update_option
        { options := menu3.options }).current_option ∧
      (([2, -1, 7] : List Int).foldl Menu.update_option
        { options := menu3.options }).current_option < menu3.options.length) ∧
    (([2, -1, 7] : List Int).foldl Menu.update_option
        { options := menu3.options }).current_option =
      ([2, -1, 7] : List Int).sum % (menu3.options.length : Int) ∧
    (([2, -1, 7] : List Int).foldl Menu.update_option
      { options := menu3.options }).current_option = 2 := by
  obtain ⟨hbounds, heq⟩ :=
    menu_update_option_runs menu3.options [2, -1, 7] (by decide)
  exact ⟨hbounds, heq (by decide), by decide⟩

/-- C2: navigating an empty menu is a guarded no-op: the modulus is never
evaluated on the zero option count (no `ZeroDivisionError`), the menu is
returned unchanged, and along any sequence of calls from the initial
zero-option menu the index remains 0. -/
theorem menu_update_option_empty_guard (m : Menu) (d : Int) (ds : List Int)
    (hm : m.options = []) :
    m.update_option_checked d = some m ∧
    m.update_option d = m ∧
    (ds.foldl Menu.update_option { options := ([] : List (String × MenuPayload)) }).current_option = 0 := by
  refine ⟨?_, update_option_of_empty m d hm, ?_⟩
  · simp [Menu.update_option_checked, hm]
  · induction ds with
    | nil => rfl
    | cons e es ih =>
      rw [List.foldl_cons, update_option_of_empty _ e rfl]
      exact ih

theorem menu_update_option_empty_guard_witness :
    ({ options := [] } : Menu).update_option_checked 4 =
        some { options := [] } ∧
      ({ options := [] } : Menu).update_option 4 = { options := [] } ∧
      (([4, -2] : List Int).foldl Menu.update_option
        { options := ([] : List (String × MenuPayload)) }).current_option = 0 :=
  menu_update_option_empty_guard { options := [] } 4 [4, -2] rfl

/-- C3: `take_damage` deals exactly 4 when the weapon type matches the
enemy's weakness and exactly 2 otherwise, decrements hp by that amount for
any starting hp (no clamping on this path), returns the damage dealt, and
touches nothing else of the enemy. -/
theorem enemy_take_damage_spec (e : Enemy) (w : Weapon) :
    (e.take_damage w).1 = (if some w.type = e.weakness then 4 else 2) ∧
    ((e.take_damage w).2).hp =
      e.hp - (if some w.type = e.weakness then 4 else 2) ∧
    ((e.take_damage w).2).max_hp = e.max_hp ∧
    ((e.take_damage w).2).weakness = e.weakness := by
  unfold Enemy.take_damage
  split <;> simp_all

/-- C4: a menu selection that yields Python `None` (no matching payload, a
"Back"-style entry with no status, or an empty menu) falls through every
`isinstance` branch of `Status.update`: the machine stays in the current
status with its recorded weapon and item untouched. -/
theorem status_update_null_noop (st : Status) :
    st.update MenuPayload.none = st ∧
      (st.update MenuPayload.none).status = st.status ∧
      (st.update MenuPayload.none).weapon = st.weapon ∧
      (st.update MenuPayload.none).item = st.item :=
  ⟨rfl, rfl, rfl, rfl⟩

/-- C10: `Player.take_damage` subtracts `max(0, dmg - defence / 2)` from hp,
clamps the resulting hp at 0, and returns that subtracted amount. -/
theorem player_take_damage_spec (p : Player) (dmg : Rat) (hdmg : 0 ≤ dmg) :
    (p.take_damage dmg).1 = max 0 (dmg - p.defence / 2) ∧
    ((p.take_damage dmg).2).hp = max 0 (p.hp - max 0 (dmg - p.defence / 2)) ∧
    0 ≤ ((p.take_damage dmg).2).hp := by
  unfold Player.take_damage
  dsimp only
  refine ⟨?_, ?_, ?_⟩ <;> (try simp only [max_def]) <;> split_ifs <;> linarith

theorem player_take_damage_spec_witness :
    ((player0.take_damage 5).1 = max 0 ((5 : Rat) - player0.defence / 2) ∧
      ((player0.take_damage 5).2).hp =
        max 0 (player0.hp - max 0 ((5 : Rat) - player0.defence / 2)) ∧
      0 ≤ ((player0.take_damage 5).2).hp) ∧
    (player0.take_damage 5).1 = 9 / 2 ∧ ((player0.take_damage 5).2).hp = 0 :=
  ⟨player_take_damage_spec player0 5 (by norm_num),
    by norm_num [Player.take_damage, player0]⟩

/-- C8: `get_option` returns the payload at the insertion-order position
equal to the current index whenever that index is valid, and returns Python
`None` (not an error) when the menu has no options. -/
theorem menu_get_option_spec (m : Menu) :
    (m.options = [] → m.get_option = some MenuPayload.none) ∧
    (0 ≤ m.current_option → m.current_option < m.options.length →
      ∃ entry, m.options.get? m.current_option.toNat = some entry ∧
        m.get_option = some entry.2) := by
  constructor
  · intro hm
    simp [Menu.get_option, hm]
  · intro h0 h1
    have hne : ¬ m.options.isEmpty = true := by
      cases hopts : m.options with
      | nil => rw [hopts] at h1; simp at h1; omega
      | cons a l => simp [hopts]
    have hlt : m.current_option.toNat < m.options.length := by omega
    refine ⟨m.options.get ⟨m.current_option.toNat, hlt⟩,
      List.get?_eq_get hlt, ?_⟩
    unfold Menu.get_option
    rw [if_neg hne]
    dsimp only
    rw [if_neg (by omega), if_neg (by omega)]
    rw [List.get?_map, List.get?_eq_get hlt]
    rfl

theorem menu_get_option_spec_witness :
    ∃ entry, menu2.options.get? menu2.current_option.toNat = some entry ∧
      menu2.get_option = some entry.2 ∧
      menu2.get_option = some (MenuPayload.status GameStatus.EXIT) := by
  obtain ⟨entry, he, hv⟩ := (menu_get_option_spec menu2).2 (by decide) (by decide)
  exact ⟨entry, he, hv, by decide⟩

/-- C9: every battle-phase scene in the table built by `generate_scenes`
names the very `enemy` and `healthbar` `Printable` cells allocated for the
`BATTLE_START` scene, so writing an enemy (e.g. with mutated hp) into that
shared cell is seen by each battle-phase scene when it is reassembled for
rendering. -/
theorem battle_scenes_share_enemy_cells :
    ∀ st ∈ battlePhaseStatuses,
      ∃ sr srb : SceneRefs,
        generate_scenes.2.lookup st = some sr ∧
        generate_scenes.2.lookup GameStatus.BATTLE_START = some srb ∧
        sr.isBattle = true ∧
        sr.enemyRef = srb.enemyRef ∧ sr.healthbarRef = srb.healthbarRef ∧
        sr.enemyRef.isSome = true ∧ sr.healthbarRef.isSome = true ∧
        (∀ (p : Printable) (r : Nat), sr.enemyRef = some r →
          ∃ bs, mkBattleScene (generate_scenes.1.set r p) sr = some bs ∧
            bs.enemy = p) := by
  intro st hst
  have hst' : st = GameStatus.BATTLE_START ∨ st = GameStatus.BATTLE_MENU ∨
      st = GameStatus.WEAPON_MENU ∨ st = GameStatus.ITEM_MENU ∨
      st = GameStatus.PLAYER_ATTACK ∨ st = GameStatus.USE_ITEM ∨
      st = GameStatus.ENEMY_ATTACK := by
    simpa [battlePhaseStatuses] using hst
  rcases hst' with rfl | rfl | rfl | rfl | rfl | rfl | rfl <;>
    refine ⟨_, _, rfl, rfl, rfl, rfl, rfl, rfl, rfl, ?_⟩ <;>
    · intro p r hr
      injection hr with h
      subst h
      exact ⟨_, rfl, rfl⟩

theorem battle_scenes_share_enemy_cells_witness :
    ∃ sr srb : SceneRefs,
      generate_scenes.2.lookup GameStatus.WEAPON_MENU = some sr ∧
      generate_scenes.2.lookup GameStatus.BATTLE_START = some srb ∧
      sr.isBattle = true ∧
      sr.enemyRef = srb.enemyRef ∧ sr.healthbarRef = srb.healthbarRef ∧
      sr.enemyRef.isSome = true ∧ sr.healthbarRef.isSome = true ∧
      (∀ (p : Printable) (r : Nat), sr.enemyRef = some r →
        ∃ bs, mkBattleScene (generate_scenes.1.set r p) sr = some bs ∧
          bs.enemy = p) :=
  battle_scenes_share_enemy_cells GameStatus.WEAPON_MENU (by decide)

/-- C5 is violated by `BattleScene.get_surface`: the `BATTLE_START` scene is
built with an unset enemy `Printable`, and rendering it faults (the source
dereferences `self.enemy.object.get_sprite(status)` before its `is not None`
guard) instead of skipping the unset slot silently. -/
theorem battlescene_render_faults_on_unset_enemy :
    ∃ bs : BattleScene,
      (generate_scenes.2.lookup GameStatus.BATTLE_START).bind
          (mkBattleScene generate_scenes.1) = some bs ∧
      bs.enemy.object = Option.none ∧
      ∀ status : GameStatus, bs.get_surface status = Option.none :=
  ⟨_, rfl, rfl, fun _ => rfl⟩

/-! ## Word-sequence lemmas -/

theorem spaceWordsAux_append_space (x y : List Char) :
    ∀ cur, spaceWordsAux cur (x ++ ' ' :: y) =
      spaceWordsAux cur x ++ spaceWordsAux [] y := by
  induction x with
  | nil =>
    intro cur
    by_cases hcur : cur = [] <;> simp [spaceWordsAux, hcur]
  | cons c x ih =>
    intro cur
    simp only [List.cons_append, spaceWordsAux]
    split_ifs <;> simp_all [spaceWordsAux]

theorem spaceWords_append_space (x y : List Char) :
    spaceWords (x ++ ' ' :: y) = spaceWords x ++ spaceWords y :=
  spaceWordsAux_append_space x y []

theorem spaceWords_nil : spaceWords [] = [] := rfl

theorem joinSpace_words : ∀ L : List (List Char),
    spaceWords (joinSpace L) = L.flatMap spaceWords
  | [] => by simp [joinSpace, spaceWords_nil]
  | [l] => by simp [joinSpace]
  | l :: l' :: rest => by
    have hjoin : joinSpace (l :: l' :: rest) = l ++ ' ' :: joinSpace (l' :: rest) :=
      rfl
    rw [hjoin, spaceWords_append_space, joinSpace_words (l' :: rest)]
    simp

/-! ## Bridging the decidable segment conditions -/

theorem windowsHaveSpace_spec {W : Nat} {s : List Char}
    (h : windowsHaveSpace W s = true) :
    ∀ q : Nat, q + W ≤ s.length →
      ∃ j : Nat, q ≤ j ∧ j < q + W ∧ s.get? j = some ' ' := by
  intro q hq
  have hmem : q ∈ List.range (s.length + 1) := List.mem_range.mpr (by omega)
  have hx := List.all_eq_true.mp h q hmem
  simp only [Bool.or_eq_true] at hx
  rcases hx with h1 | h2
  · exact absurd (of_decide_eq_true h1) (by omega)
  · obtain ⟨c, hc, hceq⟩ := List.any_eq_true.mp h2
    have hcsp : c = ' ' := by simpa using hceq
    subst hcsp
    obtain ⟨k, hkeq⟩ := List.mem_iff_get?.mp hc
    obtain ⟨hklt, _⟩ := List.get?_eq_some.mp hkeq
    simp only [List.length_take, List.length_drop] at hklt
    have hk1 : k < W := by omega
    have hk2 : q + k < s.length := by omega
    refine ⟨q + k, by omega, by omega, ?_⟩
    rw [List.get?_eq_getElem?] at hkeq ⊢
    rw [List.getElem?_take, if_pos hk1, List.getElem?_drop] at hkeq
    exact hkeq

theorem noDoubleSpace_spec : ∀ (s : List Char), noDoubleSpace s = true →
    ∀ i : Nat, s.get? i = some ' ' → s.get? (i + 1) ≠ some ' '
  | [] => by intro _ i h; simp at h
  | [c] => by
    intro _ i h hcontra
    rcases i with _ | i <;> simp at hcontra
  | c :: d :: rest => by
    intro h i
    rw [noDoubleSpace] at h
    simp only [Bool.and_eq_true] at h
    obtain ⟨h1, h2⟩ := h
    rcases i with _ | i
    · intro hc hd
      have hc' : c = ' ' := by simpa using hc
      have hd' : d = ' ' := by simpa using hd
      subst hc'; subst hd'
      simp at h1
    · intro hc hd
      exact noDoubleSpace_spec (d :: rest) h2 i (by simpa using hc)
        (by simpa using hd)

theorem lastBreakOK_spec {s : List Char} (h : lastBreakOK s = true)
    (hlen : 2 ≤ s.length) : s.get? (s.length - 2) ≠ some ' ' := by
  unfold lastBreakOK at h
  simp only [Bool.or_eq_true] at h
  rcases h with h1 | h2
  · exact absurd (of_decide_eq_true h1) (by omega)
  · simpa using h2

/-! ## Python primitive lemmas -/

theorem pyGet_nonneg (s : List Char) (i : Int) (h : 0 ≤ i) :
    pyGet s i = s.get? i.toNat := by
  simp only [pyGet]
  rw [if_neg (not_lt.mpr h), if_neg (not_lt.mpr h)]

theorem pySlice_nonneg (s : List Char) (a b : Int) (ha : 0 ≤ a) (hb : 0 ≤ b) :
    pySlice s a b = (s.take b.toNat).drop a.toNat := by
  simp only [pySlice, pyBound]
  rw [if_neg (not_lt.mpr hb), if_neg (not_lt.mpr ha)]
  have htake : s.take (min b.toNat s.length) = s.take b.toNat := by
    rcases le_total b.toNat s.length with h | h
    · rw [min_eq_left h]
    · rw [min_eq_right h, List.take_of_length_le le_rfl,
        List.take_of_length_le h]
  rw [htake]
  rcases le_total a.toNat s.length with h | h
  · rw [min_eq_left h]
  · rw [min_eq_right h]
    have hlen : (s.take b.toNat).length ≤ s.length := by
      simp only [List.length_take]; omega
    rw [List.drop_eq_nil_of_le hlen, List.drop_eq_nil_of_le (le_trans hlen h)]

/-- Split off the prefix up to a space: for `p ≤ j < len` with `s[j] = ' '`,
`s.drop p = (s.take j).drop p ++ ' ' :: s.drop (j + 1)`. -/
theorem drop_decompose (s : List Char) (p j : Nat) (hpj : p ≤ j)
    (hj : j < s.length) (hsp : s.get? j = some ' ') :
    s.drop p = (s.take j).drop p ++ ' ' :: s.drop (j + 1) := by
  rw [List.get?_eq_getElem?, List.getElem?_eq_getElem hj] at hsp
  have h2 : s.drop j = ' ' :: s.drop (j + 1) := by
    rw [List.drop_eq_getElem_cons hj, Option.some_injective _ hsp]
  have h1 : s = s.take j ++ s.drop j := (List.take_append_drop j s).symm
  conv_lhs => rw [h1]
  rw [List.drop_append_of_le_length (by simp only [List.length_take]; omega), h2]

/-! ## scanSpace lemmas -/

theorem scanSpace_hitEnd (s : List Char) (hi lo : Int) (h1 : lo ≤ hi)
    (h2 : (s.length : Int) ≤ hi) : scanSpace s hi lo = .hitEnd := by
  unfold scanSpace
  rw [show (hi + 1 - lo).toNat = (hi - lo).toNat + 1 from by omega]
  simp only [scanGo]
  rw [if_pos h2]

theorem scanGo_finds (s : List Char) :
    ∀ (n : Nat) (hi : Int), hi < (s.length : Int) →
      (∃ j : Int, hi + 1 - n ≤ j ∧ j ≤ hi ∧ pyGet s j = some ' ') →
      ∃ i : Int, scanGo s n hi = .found i ∧ hi + 1 - n ≤ i ∧ i ≤ hi ∧
        pyGet s i = some ' ' := by
  intro n
  induction n with
  | zero =>
    rintro hi hhi ⟨j, hj1, hj2, hj3⟩
    exfalso; omega
  | succ n ih =>
    rintro hi hhi ⟨j, hj1, hj2, hj3⟩
    simp only [scanGo]
    rw [if_neg (by omega)]
    by_cases hsp : pyGet s hi = some ' '
    · rw [if_pos hsp]
      exact ⟨hi, rfl, by omega, le_refl _, hsp⟩
    · rw [if_neg hsp]
      have hjhi : j ≠ hi := fun he => hsp (he ▸ hj3)
      obtain ⟨i, hout, hi1, hi2, hi3⟩ :=
        ih (hi - 1) (by omega) ⟨j, by push_cast at hj1 ⊢; omega, by omega, hj3⟩
      exact ⟨i, hout, by push_cast at hi1 ⊢; omega, by omega, hi3⟩

theorem scanSpace_finds (s : List Char) (hi lo : Int)
    (hhi : hi < (s.length : Int))
    (hex : ∃ j : Int, lo ≤ j ∧ j ≤ hi ∧ pyGet s j = some ' ') :
    ∃ i : Int, scanSpace s hi lo = .found i ∧ lo ≤ i ∧ i ≤ hi ∧
      pyGet s i = some ' ' := by
  unfold scanSpace
  obtain ⟨j, hj1, hj2, hj3⟩ := hex
  obtain ⟨i, hout, hi1, hi2, hi3⟩ :=
    scanGo_finds s ((hi + 1 - lo).toNat) hi hhi
      ⟨j, by omega, hj2, hj3⟩
  exact ⟨i, hout, by omega, hi2, hi3⟩

/-! ## The wrapping loop preserves the word sequence (under the amended
segment conditions: every space-free run shorter than the budget, no
adjacent spaces, and no final one-character word after a space) -/

theorem wrapLoop_words (s : List Char) (W : Int) (hW : 2 ≤ W)
    (hwin : ∀ q : Nat, q + W.toNat ≤ s.length →
      ∃ j : Nat, q ≤ j ∧ j < q + W.toNat ∧ s.get? j = some ' ')
    (hdd : ∀ i : Nat, s.get? i = some ' ' → s.get? (i + 1) ≠ some ' ')
    (hend : 2 ≤ s.length → s.get? (s.length - 2) ≠ some ' ') :
    ∀ (fuel : Nat) (p : Nat) (acc : List (List Char)),
      1 ≤ p → p ≤ s.length → s.get? (p - 1) = some ' ' →
      s.length + 1 ≤ fuel + p →
      ∃ L, wrapLoop s W fuel (p : Int) ((p : Int) + 1) acc = some (acc ++ L) ∧
        L.flatMap spaceWords = spaceWords (s.drop p) := by
  have hWt : ((W.toNat : Int)) = W := Int.toNat_of_nonneg (by omega)
  intro fuel
  induction fuel with
  | zero =>
    intro p acc h1 h2 h3 hf
    exfalso; omega
  | succ fuel ih =>
    intro p acc h1 h2 h3 hf
    by_cases hcond : ((p : Int) + 1 < (s.length : Int))
    · rw [wrapLoop, if_pos hcond]
      dsimp only
      by_cases hsplit : ((s.length : Int) ≤ (p : Int) + W - 1)
      · -- the scan immediately hits the end of the string: the whole tail
        -- becomes the final line
        rw [scanSpace_hitEnd s ((p : Int) + W - 1) ((p : Int) + 1) (by omega)
          hsplit]
        dsimp only
        rcases fuel with _ | fuel2
        · exfalso; omega
        · rw [wrapLoop, if_neg (by omega)]
          refine ⟨[pySlice s (p : Int) ((p : Int) + W - 1)], rfl, ?_⟩
          have hline : pySlice s (p : Int) ((p : Int) + W - 1) = s.drop p := by
            rw [pySlice_nonneg s _ _ (by omega) (by omega)]
            rw [List.take_of_length_le (by omega)]
            simp
          rw [hline]
          simp
      · -- the window contains a space: the scan returns the first one found
        have hq : p + W.toNat ≤ s.length := by omega
        obtain ⟨j, hj1, hj2, hj3⟩ := hwin p hq
        have hpne : s.get? p ≠ some ' ' := by
          have hx := hdd (p - 1) h3
          rwa [Nat.sub_add_cancel h1] at hx
        have hjp : p + 1 ≤ j := by
          rcases Nat.eq_or_lt_of_le hj1 with he | hlt
          · exact absurd hj3 (he ▸ hpne)
          · omega
        obtain ⟨i, hscan, hilo, hihi, hisp⟩ :=
          scanSpace_finds s ((p : Int) + W - 1) ((p : Int) + 1) (by omega)
            ⟨(j : Int), by omega, by omega, by
              rw [pyGet_nonneg s _ (by omega)]
              have hjj : ((j : Int)).toNat = j := by omega
              rw [hjj]; exact hj3⟩
        rw [hscan]
        dsimp only
        have hi0 : 0 ≤ i := by omega
        have hilen : i < (s.length : Int) := by omega
        have hisp' : s.get? i.toNat = some ' ' := by
          rwa [pyGet_nonneg s i hi0] at hisp
        have hq3 : s.get? (i.toNat + 1 - 1) = some ' ' := by
          simpa using hisp'
        obtain ⟨L', hL', hw'⟩ := ih (i.toNat + 1)
          (acc ++ [pySlice s (p : Int) i]) (by omega) (by omega) hq3 (by omega)
        refine ⟨pySlice s (p : Int) i :: L', ?_, ?_⟩
        · rw [show (i + 1 : Int) = ((i.toNat + 1 : Nat) : Int) from by omega,
            show (i + 2 : Int) = ((i.toNat + 1 : Nat) : Int) + 1 from by omega,
            hL']
          simp
        · simp only [List.flatMap_cons]
          rw [hw']
          have hline : pySlice s (p : Int) i = (s.take i.toNat).drop p := by
            rw [pySlice_nonneg s _ _ (by omega) hi0]
            simp
          rw [hline]
          rw [drop_decompose s p i.toNat (by omega) (by omega) hisp',
            spaceWords_append_space]
    · -- idx has reached the end: the loop exits
      rw [wrapLoop, if_neg hcond]
      refine ⟨[], by simp, ?_⟩
      rcases Nat.lt_or_ge p s.length with hlt | hge
      · exfalso
        have hp2 : p - 1 = s.length - 2 := by omega
        exact hend (by omega) (hp2 ▸ h3)
      · rw [List.drop_eq_nil_of_le hge]
        rfl

theorem wrapLoop_words_start (s : List Char) (W : Int) (hW : 2 ≤ W)
    (hwin : ∀ q : Nat, q + W.toNat ≤ s.length →
      ∃ j : Nat, q ≤ j ∧ j < q + W.toNat ∧ s.get? j = some ' ')
    (hdd : ∀ i : Nat, s.get? i = some ' ' → s.get? (i + 1) ≠ some ' ')
    (hend : 2 ≤ s.length → s.get? (s.length - 2) ≠ some ' ') :
    ∃ L, wrapLoop s W (s.length + 2) 0 0 [] = some L ∧
      L.flatMap spaceWords = spaceWords s := by
  have hWt : ((W.toNat : Int)) = W := Int.toNat_of_nonneg (by omega)
  rcases Nat.eq_zero_or_pos s.length with hlen | hlen
  · have hs : s = [] := List.length_eq_zero.mp hlen
    subst hs
    exact ⟨[], rfl, rfl⟩
  · have hcond : (0 : Int) < (s.length : Int) := by exact_mod_cast hlen
    rw [show s.length + 2 = (s.length + 1) + 1 from rfl, wrapLoop,
      if_pos hcond]
    dsimp only
    by_cases hsplit : ((s.length : Int) ≤ 0 + W - 1)
    · -- whole string shorter than the window: single line
      rw [scanSpace_hitEnd s (0 + W - 1) 0 (by omega) hsplit]
      dsimp only
      rw [wrapLoop, if_neg (by omega)]
      refine ⟨[pySlice s 0 (0 + W - 1)], rfl, ?_⟩
      have hline : pySlice s 0 (0 + W - 1) = s := by
        rw [pySlice_nonneg s _ _ le_rfl (by omega)]
        rw [List.take_of_length_le (by omega)]
        simp
      rw [hline]
      simp
    · -- first window contains a space
      have hq : 0 + W.toNat ≤ s.length := by omega
      obtain ⟨j, hj1, hj2, hj3⟩ := hwin 0 hq
      obtain ⟨i, hscan, hilo, hihi, hisp⟩ :=
        scanSpace_finds s (0 + W - 1) 0 (by omega)
          ⟨(j : Int), by omega, by omega, by
            rw [pyGet_nonneg s _ (by omega)]
            have hjj : ((j : Int)).toNat = j := by omega
            rw [hjj]; exact hj3⟩
      rw [hscan]
      dsimp only
      have hi0 : 0 ≤ i := hilo
      have hilen : i < (s.length : Int) := by omega
      have hisp' : s.get? i.toNat = some ' ' := by
        rwa [pyGet_nonneg s i hi0] at hisp
      have hq3 : s.get? (i.toNat + 1 - 1) = some ' ' := by
        simpa using hisp'
      obtain ⟨L', hL', hw'⟩ := wrapLoop_words s W hW hwin hdd hend
        (s.length + 1) (i.toNat + 1) [pySlice s 0 i] (by omega) (by omega)
        hq3 (by omega)
      refine ⟨pySlice s 0 i :: L', ?_, ?_⟩
      · rw [show (i + 1 : Int) = ((i.toNat + 1 : Nat) : Int) from by omega,
          show (i + 2 : Int) = ((i.toNat + 1 : Nat) : Int) + 1 from by omega]
        simp only [List.nil_append]
        rw [hL']
        simp
      · simp only [List.flatMap_cons]
        rw [hw']
        have hline : pySlice s 0 i = (s.take i.toNat).drop 0 := by
          rw [pySlice_nonneg s _ _ le_rfl hi0]
          simp
        have hdec := drop_decompose s 0 i.toNat (Nat.zero_le _) (by omega)
          hisp'
        rw [hline]
        conv_rhs => rw [show s = s.drop 0 from (List.drop_zero s).symm, hdec]
        rw [spaceWords_append_space]

theorem scanGo_exhausts (s : List Char)
    (hsp : ∀ j : Int, pyGet s j ≠ some ' ') :
    ∀ (n : Nat) (hi : Int), hi < (s.length : Int) →
      scanGo s n hi = .exhausted := by
  intro n
  induction n with
  | zero => intro hi hhi; rfl
  | succ n ih =>
    intro hi hhi
    simp only [scanGo]
    rw [if_neg (by omega), if_neg (hsp hi)]
    exact ih (hi - 1) (by omega)

theorem scanSpace_exhausts (s : List Char) (hi lo : Int)
    (hsp : ∀ j : Int, pyGet s j ≠ some ' ') (hhi : hi < (s.length : Int)) :
    scanSpace s hi lo = .exhausted :=
  scanGo_exhausts s hsp ((hi + 1 - lo).toNat) hi hhi

/-! ## C6: the wrapping round-trip -/

theorem formatSegment_words (s : List Char) (W : Int) (hW : 2 ≤ W)
    (h1 : windowsHaveSpace W.toNat s = true) (h2 : noDoubleSpace s = true)
    (h3 : lastBreakOK s = true) :
    ∃ L, wrapLoop s W (s.length + 2) 0 0 [] = some L ∧
      L.flatMap spaceWords = spaceWords s :=
  wrapLoop_words_start s W hW (windowsHaveSpace_spec h1)
    (noDoubleSpace_spec s h2) (fun hlen => lastBreakOK_spec h3 hlen)

theorem mapM_wrapLoop_segments (W : Int) (hW : 2 ≤ W) :
    ∀ segs : List (List Char),
      (∀ seg ∈ segs, windowsHaveSpace W.toNat seg = true ∧
        noDoubleSpace seg = true ∧ lastBreakOK seg = true) →
      ∃ Ls, (segs.mapM fun s => wrapLoop s W (s.length + 2) 0 0 []) = some Ls ∧
        (List.flatten Ls).flatMap spaceWords = segs.flatMap spaceWords := by
  intro segs
  induction segs with
  | nil => intro _; exact ⟨[], rfl, rfl⟩
  | cons s segs ih =>
    intro hcond
    obtain ⟨h1, h2, h3⟩ := hcond s (List.mem_cons_self s segs)
    obtain ⟨L, hL, hwords⟩ := formatSegment_words s W hW h1 h2 h3
    obtain ⟨Ls, hLs, hw2⟩ :=
      ih (fun seg hseg => hcond seg (List.mem_cons_of_mem s hseg))
    refine ⟨L :: Ls, ?_, ?_⟩
    · rw [List.mapM_cons, hL, hLs]
      rfl
    · simp only [List.flatten_cons, List.flatMap_append, hwords,
        List.flatMap_cons]
      rw [hw2]

/-- C6 (amended): wrapping then rejoining with separators preserves the word
sequence, for texts whose newline-separated segments have every space-free
run strictly shorter than the column budget, no two adjacent spaces, and no
final one-character word directly after a space. -/
theorem format_text_roundtrip (t : List Char) (W : Int) (hW : 2 ≤ W)
    (hseg : ∀ seg ∈ t.splitOn '\n', windowsHaveSpace W.toNat seg = true ∧
      noDoubleSpace seg = true ∧ lastBreakOK seg = true) :
    ∃ L, format_text W t = some L ∧ spaceWords (joinSpace L) = textWords t := by
  obtain ⟨Ls, hLs, hw⟩ := mapM_wrapLoop_segments W hW (t.splitOn '\n') hseg
  refine ⟨List.flatten Ls, ?_, ?_⟩
  · simp only [format_text]
    rw [hLs]
    rfl
  · rw [joinSpace_words]
    exact hw

/-- C6, counterexample to the claim as stated: "abcde" with column budget 5
contains no run longer than the budget, yet wrapping produces a single empty
line and drops every character: the for-`else` branch decrements `prev` to
-1 and the slice `string[-1:4]` is empty. -/
theorem format_text_roundtrip_counterexample :
    (∀ w ∈ spaceWords ['a', 'b', 'c', 'd', 'e'], w.length ≤ 5) ∧
    format_text 5 ['a', 'b', 'c', 'd', 'e'] = some [[]] ∧
    spaceWords (joinSpace [([] : List Char)]) = [] ∧
    textWords ['a', 'b', 'c', 'd', 'e'] = [['a', 'b', 'c', 'd', 'e']] ∧
    spaceWords (joinSpace [([] : List Char)]) ≠
      textWords ['a', 'b', 'c', 'd', 'e'] := by
  refine ⟨by decide, by decide, by decide, by decide, by decide⟩

theorem format_text_roundtrip_witness :
    ∃ L, format_text 8 ['h', 'e', 'l', 'l', 'o', ' ', 'w', 'o', 'r', 'l', 'd',
        ' ', 'f', 'o', 'o'] = some L ∧
      spaceWords (joinSpace L) = textWords ['h', 'e', 'l', 'l', 'o', ' ', 'w',
        'o', 'r', 'l', 'd', ' ', 'f', 'o', 'o'] :=
  format_text_roundtrip _ 8 (by norm_num) (by decide)

/-! ## C7: empty input and overlong single words -/

theorem update_option_checked_eq (m : Menu) (d : Int) :
    m.update_option_checked d = some (m.update_option d) := by
  unfold Menu.update_option_checked Menu.update_option
  by_cases h : m.options.isEmpty
  · simp [h]
  · have hlen : m.options.length ≠ 0 := by
      cases ho : m.options
      · rw [ho] at h; simp at h
      · simp
    simp only [h, Bool.false_eq_true, if_false]
    split_ifs <;> simp_all

theorem wrapLoopNoSpace (s : List Char) (W : Int) (hW : 2 ≤ W)
    (hsp : ∀ j : Int, pyGet s j ≠ some ' ') :
    ∀ (fuel : Nat) (p : Nat) (acc : List (List Char)),
      1 ≤ p → p ≤ s.length → s.length + 1 ≤ fuel + p →
      ∃ L, wrapLoop s W fuel (p : Int) ((p : Int) + 1) acc = some (acc ++ L) ∧
        ∀ l ∈ L, l.length ≤ W.toNat := by
  have hWt : ((W.toNat : Int)) = W := Int.toNat_of_nonneg (by omega)
  intro fuel
  induction fuel with
  | zero => intro p acc h1 h2 hf; exfalso; omega
  | succ fuel ih =>
    intro p acc h1 h2 hf
    by_cases hcond : ((p : Int) + 1 < (s.length : Int))
    · rw [wrapLoop, if_pos hcond]
      dsimp only
      by_cases hsplit : ((s.length : Int) ≤ (p : Int) + W - 1)
      · rw [scanSpace_hitEnd s ((p : Int) + W - 1) ((p : Int) + 1) (by omega)
          hsplit]
        dsimp only
        rcases fuel with _ | fuel2
        · exfalso; omega
        · rw [wrapLoop, if_neg (by omega)]
          refine ⟨[pySlice s (p : Int) ((p : Int) + W - 1)], rfl, ?_⟩
          intro l hl
          rw [List.mem_singleton] at hl
          subst hl
          rw [pySlice_nonneg s _ _ (by omega) (by omega)]
          simp only [List.length_drop, List.length_take]
          omega
      · rw [scanSpace_exhausts s ((p : Int) + W - 1) ((p : Int) + 1) hsp
          (by omega)]
        dsimp only
        rw [if_pos (hsp _)]
        obtain ⟨L', hL', hlen'⟩ := ih (p + W.toNat)
          (acc ++ [pySlice s ((p : Int) - 1) ((p : Int) + W - 1)])
          (by omega) (by omega) (by omega)
        refine ⟨pySlice s ((p : Int) - 1) ((p : Int) + W - 1) :: L', ?_, ?_⟩
        · rw [show ((p : Int) + W - 1 + 1) = ((p + W.toNat : Nat) : Int) from
            by push_cast; omega,
            show ((p : Int) + W - 1 + 2) = ((p + W.toNat : Nat) : Int) + 1 from
            by push_cast; omega,
            hL']
          simp
        · intro l hl
          rcases List.mem_cons.mp hl with hl | hl
          · subst hl
            rw [pySlice_nonneg s _ _ (by omega) (by omega)]
            simp only [List.length_drop, List.length_take]
            omega
          · exact hlen' l hl
    · rw [wrapLoop, if_neg hcond]
      exact ⟨[], by simp, by simp⟩

theorem wrapLoopNoSpace_start (s : List Char) (W : Int) (hW : 2 ≤ W)
    (hsp : ∀ j : Int, pyGet s j ≠ some ' ') :
    ∃ L, wrapLoop s W (s.length + 2) 0 0 [] = some L ∧
      ∀ l ∈ L, l.length ≤ W.toNat := by
  have hWt : ((W.toNat : Int)) = W := Int.toNat_of_nonneg (by omega)
  rcases Nat.eq_zero_or_pos s.length with hlen | hlen
  · have hs : s = [] := List.length_eq_zero.mp hlen
    subst hs
    exact ⟨[], rfl, by simp⟩
  · have hcond : (0 : Int) < (s.length : Int) := by exact_mod_cast hlen
    rw [show s.length + 2 = (s.length + 1) + 1 from rfl, wrapLoop,
      if_pos hcond]
    dsimp only
    by_cases hsplit : ((s.length : Int) ≤ 0 + W - 1)
    · rw [scanSpace_hitEnd s (0 + W - 1) 0 (by omega) hsplit]
      dsimp only
      rw [wrapLoop, if_neg (by omega)]
      refine ⟨[pySlice s 0 (0 + W - 1)], rfl, ?_⟩
      intro l hl
      rw [List.mem_singleton] at hl
      subst hl
      rw [pySlice_nonneg s _ _ le_rfl (by omega)]
      simp only [List.length_drop, List.length_take]
      omega
    · rw [scanSpace_exhausts s (0 + W - 1) 0 hsp (by omega)]
      dsimp only
      rw [if_pos (hsp _)]
      obtain ⟨L', hL', hlen'⟩ := wrapLoopNoSpace s W hW hsp (s.length + 1)
        W.toNat [pySlice s (0 - 1) (0 + W - 1)] (by omega) (by omega)
        (by omega)
      refine ⟨pySlice s (0 - 1) (0 + W - 1) :: L', ?_, ?_⟩
      · rw [show (0 + W - 1 + 1 : Int) = ((W.toNat : Nat) : Int) from by omega,
          show (0 + W - 1 + 2 : Int) = ((W.toNat : Nat) : Int) + 1 from by
            omega]
        simp only [List.nil_append]
        rw [hL']
        simp
      · intro l hl
        rcases List.mem_cons.mp hl with hl | hl
        · subst hl
          simp only [pySlice, pyBound]
          rw [if_neg (show ¬((0 + W - 1 : Int) < 0) by omega),
            if_pos (show (0 - 1 : Int) < 0 by omega)]
          simp only [List.length_drop, List.length_take]
          omega
        · exact hlen' l hl

/-- C7 (amended): wrapping the empty string produces no lines at all (the
while loop never runs, so the empty list — not a single empty line — comes
back), and a single space-free word longer than the column budget is broken
into lines each no longer than the budget (hence strictly shorter than the
word): it is never left on one overlong line, though characters can be
dropped in the process. -/
theorem format_text_edge_cases (W : Int) (s : List Char) (hW : 2 ≤ W)
    (hsp : ∀ c ∈ s, c ≠ ' ' ∧ c ≠ '\n') (hlen : (W : Int) < s.length) :
    format_text W [] = some [] ∧
    ∃ L, format_text W s = some L ∧
      ∀ l ∈ L, l.length ≤ W.toNat ∧ l.length < s.length := by
  have hWt : ((W.toNat : Int)) = W := Int.toNat_of_nonneg (by omega)
  constructor
  · rfl
  · have hsplit1 : s.splitOn '\n' = [s] := by
      rw [List.splitOn]
      exact List.splitOnP_eq_single _ _ (fun x hx => by simp [(hsp x hx).2])
    have hpy : ∀ j : Int, pyGet s j ≠ some ' ' := by
      intro j hj
      unfold pyGet at hj
      by_cases hneg : (if j < 0 then j + s.length else j) < 0
      · rw [if_pos hneg] at hj
        exact Option.noConfusion hj
      · rw [if_neg hneg] at hj
        exact (hsp ' ' (List.get?_mem hj)).1 rfl
    obtain ⟨L, hL, hlenL⟩ := wrapLoopNoSpace_start s W hW hpy
    refine ⟨L, ?_, ?_⟩
    · simp only [format_text, hsplit1, List.mapM_cons, List.mapM_nil, hL]
      simp
    · intro l hl
      refine ⟨hlenL l hl, ?_⟩
      have := hlenL l hl
      omega

/-- C7, counterexample to the claim as stated: the empty string wraps to the
empty list of lines, not to one empty line. -/
theorem format_text_empty_counterexample :
    format_text 5 [] = some [] ∧
    format_text 5 [] ≠ some [([] : List Char)] := by
  refine ⟨by decide, by decide⟩

theorem format_text_edge_cases_witness :
    format_text 3 [] = some [] ∧
    ∃ L, format_text 3 ['a', 'b', 'c', 'd', 'e'] = some L ∧
      ∀ l ∈ L, l.length ≤ (3 : Int).toNat ∧
        l.length < (['a', 'b', 'c', 'd', 'e'] : List Char).length :=
  format_text_edge_cases 3 ['a', 'b', 'c', 'd', 'e'] (by norm_num)
    (by decide) (by norm_num)
